import Mathlib

/-!
Verification of the in-memory redis-like queue mock (src/lib/index.ts).

The store keeps a list `storing` of per-queue records `{ key, watch, items }`:
`items` buffers pushed string values (head = next to pop) and `watch` holds the
pending blocking-pop callbacks (head = oldest).  Callbacks never run store code
here; they are modelled by opaque numeric identifiers, and each invocation the
engine performs is recorded as an event carrying the callback id, the error
argument and the reply argument.  The JavaScript `findIndex` + in-place update
of the first record whose `key` matches is embedded as structural recursion
that rewrites the first matching record and leaves the rest untouched; a record
is appended at the tail when no record matches, exactly as the source pushes a
fresh object onto `storing`.
-/

namespace RedisQueueMock

/-- One named queue of a store: mirrors the object literal
`{ key, watch, items }` that `rpush`/`blpop` push onto `storing`.
`watch` lists pending blocking-pop callback ids, oldest first; `items` lists
buffered values, head first. -/
structure QueueEntry where
  key : String
  watch : List Nat
  items : List String
deriving Repr, DecidableEq

/-- An observable callback invocation made by the engine: a blocking-pop
callback receives `(err, [queueKey, value] | null)`, an immediate-pop callback
receives `(err, value | null)`.  The source always passes `null` for `err`;
the model keeps the argument so that this is a theorem, not a convention. -/
inductive Ev where
  | blpopCall (cb : Nat) (err : Option String) (reply : Option (String × String))
  | lpopCall (cb : Nat) (err : Option String) (reply : Option String)
deriving Repr, DecidableEq

/-- The `storing` array of one `RedisQueueMockStored`. -/
abbrev Storing := List QueueEntry

/-- `RedisQueueMockClient.rpush`: find the first record for `queueKey`.
If it has waiters, shift the oldest waiter, invoke it with
`(null, [queueKey, value])` and return `items.length + 1` without buffering the
value; else push the value onto `items` and return the new length.  When no
record exists, push `{ key, watch: [], items: [value] }` and return `1`. -/
def rpush : Storing → String → String → Nat × Storing × List Ev
  | [], queueKey, value => (1, [⟨queueKey, [], [value]⟩], [])
  | e :: rest, queueKey, value =>
    if e.key = queueKey then
      match e.watch with
      | w :: ws =>
        (e.items.length + 1, { e with watch := ws } :: rest,
          [Ev.blpopCall w none (some (queueKey, value))])
      | [] =>
        ((e.items ++ [value]).length, { e with items := e.items ++ [value] } :: rest, [])
    else
      let r := rpush rest queueKey value
      (r.1, e :: r.2.1, r.2.2)

/-- `RedisQueueMockClient.blpop`: find the first record for `queueKey`.
If it has buffered items, shift the head item and invoke the callback with
`(null, [queueKey, item])`; else push the callback onto `watch`.  When no
record exists, push `{ key, watch: [callback], items: [] }`.  The
`timeoutInSecs` argument is received but never read by the source. -/
def blpop : Storing → String → Nat → Nat → Storing × List Ev
  | [], queueKey, _timeoutInSecs, callback => ([⟨queueKey, [callback], []⟩], [])
  | e :: rest, queueKey, timeoutInSecs, callback =>
    if e.key = queueKey then
      match e.items with
      | i :: is =>
        ({ e with items := is } :: rest, [Ev.blpopCall callback none (some (queueKey, i))])
      | [] =>
        ({ e with watch := e.watch ++ [callback] } :: rest, [])
    else
      let r := blpop rest queueKey timeoutInSecs callback
      (e :: r.1, r.2)

/-- `RedisQueueMockClient.lpop`: find the first record for `queueKey`.
If it has buffered items, shift the head item and invoke the callback with
`(null, item)`; in every other case invoke the callback with `(null, null)`
and leave the store untouched. -/
def lpop : Storing → String → Nat → Storing × List Ev
  | [], _queueKey, callback => ([], [Ev.lpopCall callback none none])
  | e :: rest, queueKey, callback =>
    if e.key = queueKey then
      match e.items with
      | i :: is =>
        ({ e with items := is } :: rest, [Ev.lpopCall callback none (some i)])
      | [] =>
        (e :: rest, [Ev.lpopCall callback none none])
    else
      let r := lpop rest queueKey callback
      (e :: r.1, r.2)

/-- `RedisQueueMockClient.on` (named `onEvent` here because `on` is reserved
notation in this development's library): the client object stores listeners in
the single field `error`, assigned only when the label is the string `error`;
the state of that field is the whole listener state of a handle. -/
def onEvent (error : Option Nat) (event : String) (listener : Nat) : Option Nat :=
  if event = "error" then some listener else error

/-- Which listener a handle currently keeps for a label: the client object of
the source has exactly one listener field, `error`; there is no field for any
other label, so only the label `error` can ever have a kept listener. -/
def listenerFor (error : Option Nat) (event : String) : Option Nat :=
  if event = "error" then error else none

/-- `RedisQueueMockStored`: a registered store pairs its connection string
with its `storing` array. -/
structure Stored where
  connect : String
  storing : Storing
deriving Repr, DecidableEq

/-- The static `RedisQueueMockStored.stores` array; a client handle is the
index of its store in this array. -/
abbrev Registry := List Stored

/-- The JavaScript test `connect.startsWith('mocks://')` of `createClient`:
the character sequence of the connection string begins with the characters of
the scheme literal. -/
def startsWithMocks (connect : String) : Bool :=
  "mocks://".data.isPrefixOf connect.data

/-- The `for (const store of RedisQueueMockStored.stores)` scan of
`createClient`: index of the first store whose `connect` matches. -/
def findStore : Registry → String → Option Nat
  | [], _ => none
  | s :: rest, connect =>
    if s.connect = connect then some 0
    else (findStore rest connect).map (· + 1)

/-- `createClient`: when the connection string starts with `mocks://`, reuse
the first registered store with that connection string or append a fresh empty
store; otherwise throw `invalid mock queue protocol`.  The returned registry is
the post-call state of the static store array, unchanged on the error path. -/
def createClient (stores : Registry) (connect : String) :
    Except String Nat × Registry :=
  if startsWithMocks connect = true then
    match findStore stores connect with
    | some i => (Except.ok i, stores)
    | none => (Except.ok stores.length, stores ++ [⟨connect, []⟩])
  else
    (Except.error "invalid mock queue protocol", stores)

/-- One operation of a client program: acquiring a handle, or one of the three
queue operations issued through the handle `h` (the store index returned by a
previous `createClient`). -/
inductive Op where
  | create (connect : String)
  | rpushOp (h : Nat) (queueKey value : String)
  | blpopOp (h : Nat) (queueKey : String) (timeoutInSecs : Nat) (callback : Nat)
  | lpopOp (h : Nat) (queueKey : String) (callback : Nat)
deriving Repr, DecidableEq

/-- Effect of one operation on the registry, with the callback invocations it
performs.  A data operation through a handle rewrites that handle's store with
the corresponding store-level function; a handle not backed by a store (which
`createClient` never hands out) leaves the registry unchanged. -/
def step (stores : Registry) : Op → Registry × List Ev
  | .create connect => ((createClient stores connect).2, [])
  | .rpushOp h queueKey value =>
    match stores[h]? with
    | some s =>
      let r := rpush s.storing queueKey value
      (stores.set h { s with storing := r.2.1 }, r.2.2)
    | none => (stores, [])
  | .blpopOp h queueKey timeoutInSecs callback =>
    match stores[h]? with
    | some s =>
      let r := blpop s.storing queueKey timeoutInSecs callback
      (stores.set h { s with storing := r.1 }, r.2)
    | none => (stores, [])
  | .lpopOp h queueKey callback =>
    match stores[h]? with
    | some s =>
      let r := lpop s.storing queueKey callback
      (stores.set h { s with storing := r.1 }, r.2)
    | none => (stores, [])

/-- Run a program from a registry state, collecting every callback invocation
in order. -/
def run : Registry → List Op → Registry × List Ev
  | stores, [] => (stores, [])
  | stores, op :: ops =>
    let r := step stores op
    let r2 := run r.1 ops
    (r2.1, r.2 ++ r2.2)

/-- An operation addresses a store the registry actually holds: the handle of
a data operation is in range (handles returned by `createClient` always are,
since the store array only ever grows). -/
def opHandleOk (stores : Registry) : Op → Bool
  | Op.create _ => true
  | Op.rpushOp h _ _ => decide (h < stores.length)
  | Op.blpopOp h _ _ _ => decide (h < stores.length)
  | Op.lpopOp h _ _ => decide (h < stores.length)

/-- Every data operation of the program addresses a store that exists at the
moment it runs. -/
def validOps : Registry → List Op → Bool
  | _, [] => true
  | stores, op :: ops => opHandleOk stores op && validOps (step stores op).1 ops

/-- The hand-off discipline of one queue record: buffered items and pending
waiters are never both present. -/
def EntryOk (e : QueueEntry) : Prop := e.items = [] ∨ e.watch = []

/-- Every queue record of a storing array satisfies the hand-off discipline. -/
def StoringOk (st : Storing) : Prop := ∀ e ∈ st, EntryOk e

/-- Every store of the registry satisfies the hand-off discipline. -/
def RegistryOk (stores : Registry) : Prop := ∀ s ∈ stores, StoringOk s.storing

/-- Number of invocation events delivered to blocking-pop callback `cb`. -/
def countCalls (cb : Nat) : List Ev → Nat
  | [] => 0
  | Ev.blpopCall c _ _ :: evs => (if c = cb then 1 else 0) + countCalls cb evs
  | Ev.lpopCall _ _ _ :: evs => countCalls cb evs

/-- Occurrences of callback `cb` in one waiter list. -/
def countList (cb : Nat) : List Nat → Nat
  | [] => 0
  | n :: ns => (if n = cb then 1 else 0) + countList cb ns

/-- Number of pending registrations of callback `cb` in one storing array. -/
def countWatch (cb : Nat) : Storing → Nat
  | [] => 0
  | e :: rest => countList cb e.watch + countWatch cb rest

/-- Number of pending registrations of callback `cb` across the whole
registry. -/
def countWatchReg (cb : Nat) : Registry → Nat
  | [] => 0
  | s :: rest => countWatch cb s.storing + countWatchReg cb rest

/-- Number of blocking-pop operations of a program that use callback `cb`. -/
def countBlpopOps (cb : Nat) : List Op → Nat
  | [] => 0
  | Op.blpopOp _ _ _ c :: ops => (if c = cb then 1 else 0) + countBlpopOps cb ops
  | _ :: ops => countBlpopOps cb ops

theorem rpush_skip (e : QueueEntry) (rest : Storing) (queueKey value : String)
    (h : ¬ e.key = queueKey) :
    rpush (e :: rest) queueKey value =
      ((rpush rest queueKey value).1, e :: (rpush rest queueKey value).2.1,
        (rpush rest queueKey value).2.2) := by
  rw [rpush, if_neg h]

theorem blpop_skip (e : QueueEntry) (rest : Storing) (queueKey : String)
    (timeoutInSecs callback : Nat) (h : ¬ e.key = queueKey) :
    blpop (e :: rest) queueKey timeoutInSecs callback =
      (e :: (blpop rest queueKey timeoutInSecs callback).1,
        (blpop rest queueKey timeoutInSecs callback).2) := by
  rw [blpop, if_neg h]

theorem lpop_skip (e : QueueEntry) (rest : Storing) (queueKey : String)
    (callback : Nat) (h : ¬ e.key = queueKey) :
    lpop (e :: rest) queueKey callback =
      (e :: (lpop rest queueKey callback).1, (lpop rest queueKey callback).2) := by
  rw [lpop, if_neg h]

theorem rpush_found_watch (pre post : Storing) (e : QueueEntry)
    (queueKey value : String) (w : Nat) (ws : List Nat)
    (hpre : ∀ e' ∈ pre, ¬ e'.key = queueKey)
    (hk : e.key = queueKey) (hw : e.watch = w :: ws) :
    rpush (pre ++ e :: post) queueKey value =
      (e.items.length + 1, pre ++ { e with watch := ws } :: post,
        [Ev.blpopCall w none (some (queueKey, value))]) := by
  induction pre with
  | nil =>
    simp only [List.nil_append]
    rw [rpush, if_pos hk, hw]
  | cons a pre ih =>
    rw [List.cons_append, rpush_skip a _ _ _ (hpre a (by simp)),
      ih (fun e' he' => hpre e' (by simp [he']))]
    rfl

theorem rpush_found_no_watch (pre post : Storing) (e : QueueEntry)
    (queueKey value : String) (hpre : ∀ e' ∈ pre, ¬ e'.key = queueKey)
    (hk : e.key = queueKey) (hw : e.watch = []) :
    rpush (pre ++ e :: post) queueKey value =
      (e.items.length + 1, pre ++ { e with items := e.items ++ [value] } :: post,
        []) := by
  induction pre with
  | nil =>
    simp only [List.nil_append]
    rw [rpush, if_pos hk, hw]
    simp
  | cons a pre ih =>
    rw [List.cons_append, rpush_skip a _ _ _ (hpre a (by simp)),
      ih (fun e' he' => hpre e' (by simp [he']))]
    rfl

theorem rpush_absent (st : Storing) (queueKey value : String)
    (h : ∀ e ∈ st, ¬ e.key = queueKey) :
    rpush st queueKey value = (1, st ++ [⟨queueKey, [], [value]⟩], []) := by
  induction st with
  | nil => rfl
  | cons e rest ih =>
    rw [rpush_skip e rest _ _ (h e (by simp)),
      ih (fun e' he' => h e' (by simp [he']))]
    rfl

theorem blpop_found_items (pre post : Storing) (e : QueueEntry)
    (queueKey : String) (timeoutInSecs callback : Nat) (i : String)
    (is : List String) (hpre : ∀ e' ∈ pre, ¬ e'.key = queueKey)
    (hk : e.key = queueKey) (hi : e.items = i :: is) :
    blpop (pre ++ e :: post) queueKey timeoutInSecs callback =
      (pre ++ { e with items := is } :: post,
        [Ev.blpopCall callback none (some (queueKey, i))]) := by
  induction pre with
  | nil =>
    simp only [List.nil_append]
    rw [blpop, if_pos hk, hi]
  | cons a pre ih =>
    rw [List.cons_append, blpop_skip a _ _ _ _ (hpre a (by simp)),
      ih (fun e' he' => hpre e' (by simp [he']))]
    rfl

theorem blpop_found_no_items (pre post : Storing) (e : QueueEntry)
    (queueKey : String) (timeoutInSecs callback : Nat)
    (hpre : ∀ e' ∈ pre, ¬ e'.key = queueKey)
    (hk : e.key = queueKey) (hi : e.items = []) :
    blpop (pre ++ e :: post) queueKey timeoutInSecs callback =
      (pre ++ { e with watch := e.watch ++ [callback] } :: post, []) := by
  induction pre with
  | nil =>
    simp only [List.nil_append]
    rw [blpop, if_pos hk, hi]
  | cons a pre ih =>
    rw [List.cons_append, blpop_skip a _ _ _ _ (hpre a (by simp)),
      ih (fun e' he' => hpre e' (by simp [he']))]
    rfl

theorem blpop_absent (st : Storing) (queueKey : String)
    (timeoutInSecs callback : Nat) (h : ∀ e ∈ st, ¬ e.key = queueKey) :
    blpop st queueKey timeoutInSecs callback =
      (st ++ [⟨queueKey, [callback], []⟩], []) := by
  induction st with
  | nil => rfl
  | cons e rest ih =>
    rw [blpop_skip e rest _ _ _ (h e (by simp)),
      ih (fun e' he' => h e' (by simp [he']))]
    rfl

theorem lpop_found_items (pre post : Storing) (e : QueueEntry)
    (queueKey : String) (callback : Nat) (i : String) (is : List String)
    (hpre : ∀ e' ∈ pre, ¬ e'.key = queueKey)
    (hk : e.key = queueKey) (hi : e.items = i :: is) :
    lpop (pre ++ e :: post) queueKey callback =
      (pre ++ { e with items := is } :: post,
        [Ev.lpopCall callback none (some i)]) := by
  induction pre with
  | nil =>
    simp only [List.nil_append]
    rw [lpop, if_pos hk, hi]
  | cons a pre ih =>
    rw [List.cons_append, lpop_skip a _ _ _ (hpre a (by simp)),
      ih (fun e' he' => hpre e' (by simp [he']))]
    rfl

theorem lpop_found_no_items (pre post : Storing) (e : QueueEntry)
    (queueKey : String) (callback : Nat)
    (hpre : ∀ e' ∈ pre, ¬ e'.key = queueKey)
    (hk : e.key = queueKey) (hi : e.items = []) :
    lpop (pre ++ e :: post) queueKey callback =
      (pre ++ e :: post, [Ev.lpopCall callback none none]) := by
  induction pre with
  | nil =>
    simp only [List.nil_append]
    rw [lpop, if_pos hk, hi]
  | cons a pre ih =>
    rw [List.cons_append, lpop_skip a _ _ _ (hpre a (by simp)),
      ih (fun e' he' => hpre e' (by simp [he']))]

theorem lpop_absent (st : Storing) (queueKey : String) (callback : Nat)
    (h : ∀ e ∈ st, ¬ e.key = queueKey) :
    lpop st queueKey callback = (st, [Ev.lpopCall callback none none]) := by
  induction st with
  | nil => rfl
  | cons e rest ih =>
    rw [lpop_skip e rest _ _ (h e (by simp)),
      ih (fun e' he' => h e' (by simp [he']))]

/-- C1: for every store state, queue name and value, `rpush` behaves as
follows: when the named queue (the first matching record, with no earlier
record of that key) has one or more waiters, it removes the oldest waiter,
invokes it synchronously with `(null, [name, value])`, buffers nothing and
returns `items.length + 1`; when the queue exists with no waiters it appends
the value at the tail of `items` and returns the new length; when the queue
does not exist it creates it with an empty waiter list and the single pushed
item and returns `1`. -/
theorem rpush_cases (st : Storing) (queueKey value : String) :
    (∀ pre e post w ws, st = pre ++ e :: post →
      (∀ e' ∈ pre, ¬ e'.key = queueKey) → e.key = queueKey → e.watch = w :: ws →
      rpush st queueKey value =
        (e.items.length + 1, pre ++ { e with watch := ws } :: post,
          [Ev.blpopCall w none (some (queueKey, value))])) ∧
    (∀ pre e post, st = pre ++ e :: post →
      (∀ e' ∈ pre, ¬ e'.key = queueKey) → e.key = queueKey → e.watch = [] →
      rpush st queueKey value =
        (e.items.length + 1, pre ++ { e with items := e.items ++ [value] } :: post,
          [])) ∧
    ((∀ e ∈ st, ¬ e.key = queueKey) →
      rpush st queueKey value = (1, st ++ [⟨queueKey, [], [value]⟩], [])) := by
  refine ⟨?_, ?_, ?_⟩
  · intro pre e post w ws hst hpre hk hw
    subst hst
    exact rpush_found_watch pre post e queueKey value w ws hpre hk hw
  · intro pre e post hst hpre hk hw
    subst hst
    exact rpush_found_no_watch pre post e queueKey value hpre hk hw
  · exact rpush_absent st queueKey value

/-- Witness for `rpush_cases`: the three cases evaluated on concrete stores. -/
theorem rpush_cases_witness :
    rpush [⟨"Q", [7], []⟩] "Q" "v" =
      (1, [⟨"Q", [], []⟩], [Ev.blpopCall 7 none (some ("Q", "v"))]) ∧
    rpush [⟨"Q", [], ["a"]⟩] "Q" "v" = (2, [⟨"Q", [], ["a", "v"]⟩], []) ∧
    rpush [⟨"R", [], ["x"]⟩] "Q" "v" =
      (1, [⟨"R", [], ["x"]⟩, ⟨"Q", [], ["v"]⟩], []) :=
  ⟨(rpush_cases [⟨"Q", [7], []⟩] "Q" "v").1 [] ⟨"Q", [7], []⟩ [] 7 [] rfl
      (by decide) rfl rfl,
   (rpush_cases [⟨"Q", [], ["a"]⟩] "Q" "v").2.1 [] ⟨"Q", [], ["a"]⟩ [] rfl
      (by decide) rfl rfl,
   (rpush_cases [⟨"R", [], ["x"]⟩] "Q" "v").2.2 (by decide)⟩

/-- C2: for every store state, queue name, timeout and callback, `blpop`
behaves as follows: when the named queue exists and has buffered items it
removes the head item and invokes the callback synchronously with
`(null, [name, item])`; otherwise it appends the callback at the tail of the
queue's waiter list, creating the queue when absent, and invokes nothing. -/
theorem blpop_cases (st : Storing) (queueKey : String)
    (timeoutInSecs callback : Nat) :
    (∀ pre e post i is, st = pre ++ e :: post →
      (∀ e' ∈ pre, ¬ e'.key = queueKey) → e.key = queueKey → e.items = i :: is →
      blpop st queueKey timeoutInSecs callback =
        (pre ++ { e with items := is } :: post,
          [Ev.blpopCall callback none (some (queueKey, i))])) ∧
    (∀ pre e post, st = pre ++ e :: post →
      (∀ e' ∈ pre, ¬ e'.key = queueKey) → e.key = queueKey → e.items = [] →
      blpop st queueKey timeoutInSecs callback =
        (pre ++ { e with watch := e.watch ++ [callback] } :: post, [])) ∧
    ((∀ e ∈ st, ¬ e.key = queueKey) →
      blpop st queueKey timeoutInSecs callback =
        (st ++ [⟨queueKey, [callback], []⟩], [])) := by
  refine ⟨?_, ?_, ?_⟩
  · intro pre e post i is hst hpre hk hi
    subst hst
    exact blpop_found_items pre post e queueKey timeoutInSecs callback i is hpre hk hi
  · intro pre e post hst hpre hk hi
    subst hst
    exact blpop_found_no_items pre post e queueKey timeoutInSecs callback hpre hk hi
  · exact blpop_absent st queueKey timeoutInSecs callback

/-- Witness for `blpop_cases`: the three cases evaluated on concrete stores. -/
theorem blpop_cases_witness :
    blpop [⟨"Q", [], ["a", "b"]⟩] "Q" 5 9 =
      ([⟨"Q", [], ["b"]⟩], [Ev.blpopCall 9 none (some ("Q", "a"))]) ∧
    blpop [⟨"Q", [4], []⟩] "Q" 5 9 = ([⟨"Q", [4, 9], []⟩], []) ∧
    blpop [⟨"R", [], ["x"]⟩] "Q" 5 9 =
      ([⟨"R", [], ["x"]⟩, ⟨"Q", [9], []⟩], []) :=
  ⟨(blpop_cases [⟨"Q", [], ["a", "b"]⟩] "Q" 5 9).1 [] ⟨"Q", [], ["a", "b"]⟩ []
      "a" ["b"] rfl (by decide) rfl rfl,
   (blpop_cases [⟨"Q", [4], []⟩] "Q" 5 9).2.1 [] ⟨"Q", [4], []⟩ [] rfl
      (by decide) rfl rfl,
   (blpop_cases [⟨"R", [], ["x"]⟩] "Q" 5 9).2.2 (by decide)⟩

/-- C7: for every store state, queue name and callback, `lpop` invokes its
callback exactly once and always with a null error: when the queue exists with
buffered items it removes the head item and delivers it, otherwise it delivers
`(null, null)` leaving the store untouched; it never registers a waiter (no
watch list ever changes). -/
theorem lpop_cases (st : Storing) (queueKey : String) (callback : Nat) :
    (∀ pre e post i is, st = pre ++ e :: post →
      (∀ e' ∈ pre, ¬ e'.key = queueKey) → e.key = queueKey → e.items = i :: is →
      lpop st queueKey callback =
        (pre ++ { e with items := is } :: post,
          [Ev.lpopCall callback none (some i)])) ∧
    (∀ pre e post, st = pre ++ e :: post →
      (∀ e' ∈ pre, ¬ e'.key = queueKey) → e.key = queueKey → e.items = [] →
      lpop st queueKey callback = (st, [Ev.lpopCall callback none none])) ∧
    ((∀ e ∈ st, ¬ e.key = queueKey) →
      lpop st queueKey callback = (st, [Ev.lpopCall callback none none])) ∧
    (∃ r, (lpop st queueKey callback).2 = [Ev.lpopCall callback none r]) ∧
    ((lpop st queueKey callback).1).map QueueEntry.watch =
      st.map QueueEntry.watch := by
  refine ⟨?_, ?_, ?_, ?_⟩
  · intro pre e post i is hst hpre hk hi
    subst hst
    exact lpop_found_items pre post e queueKey callback i is hpre hk hi
  · intro pre e post hst hpre hk hi
    subst hst
    exact lpop_found_no_items pre post e queueKey callback hpre hk hi
  · exact lpop_absent st queueKey callback
  · induction st with
    | nil => exact ⟨⟨none, rfl⟩, rfl⟩
    | cons e rest ih =>
      obtain ⟨⟨r, hr⟩, hw⟩ := ih
      by_cases h : e.key = queueKey
      · cases hi : e.items with
        | nil => exact ⟨⟨none, by simp [lpop, h, hi]⟩, by simp [lpop, h, hi]⟩
        | cons i is => exact ⟨⟨some i, by simp [lpop, h, hi]⟩, by simp [lpop, h, hi]⟩
      · exact ⟨⟨r, by simp [lpop_skip e rest queueKey callback h, hr]⟩,
          by simp [lpop_skip e rest queueKey callback h, hw]⟩

/-- Witness for `lpop_cases`: the cases evaluated on concrete stores. -/
theorem lpop_cases_witness :
    lpop [⟨"Q", [], ["a", "b"]⟩] "Q" 3 =
      ([⟨"Q", [], ["b"]⟩], [Ev.lpopCall 3 none (some "a")]) ∧
    lpop [⟨"Q", [4], []⟩] "Q" 3 =
      ([⟨"Q", [4], []⟩], [Ev.lpopCall 3 none none]) ∧
    lpop [⟨"R", [], ["x"]⟩] "Q" 3 =
      ([⟨"R", [], ["x"]⟩], [Ev.lpopCall 3 none none]) :=
  ⟨(lpop_cases [⟨"Q", [], ["a", "b"]⟩] "Q" 3).1 [] ⟨"Q", [], ["a", "b"]⟩ []
      "a" ["b"] rfl (by decide) rfl rfl,
   (lpop_cases [⟨"Q", [4], []⟩] "Q" 3).2.1 [] ⟨"Q", [4], []⟩ [] rfl
      (by decide) rfl rfl,
   (lpop_cases [⟨"R", [], ["x"]⟩] "Q" 3).2.2.1 (by decide)⟩

/-- C8: a connection string that does not begin with the `mocks://` scheme
makes `createClient` fail synchronously with the invalid-scheme error and
leaves the registry exactly as it was: no store is created or consulted. -/
theorem createClient_invalid_scheme (stores : Registry) (connect : String)
    (h : startsWithMocks connect = false) :
    createClient stores connect =
      (Except.error "invalid mock queue protocol", stores) := by
  rw [createClient, if_neg]
  simp [h]

/-- Witness for `createClient_invalid_scheme`: a `redis://` connection string
is rejected over a non-empty registry, which stays unchanged. -/
theorem createClient_invalid_scheme_witness :
    startsWithMocks "redis://x" = false ∧
      createClient [⟨"mocks://a", []⟩] "redis://x" =
        (Except.error "invalid mock queue protocol", [⟨"mocks://a", []⟩]) :=
  ⟨by decide, createClient_invalid_scheme [⟨"mocks://a", []⟩] "redis://x" (by decide)⟩

/-- C9 counterexample: registering listener `5` for the label `ready` does not
keep it — the client object only ever stores a listener for `error`, so the
claim that a registration for either label replaces (and hence installs) the
listener fails at the label `ready`. -/
theorem on_ready_listener_not_kept :
    listenerFor (onEvent none "ready" 5) "ready" ≠ some 5 ∧
      listenerFor (onEvent none "ready" 5) "ready" = none := by
  exact ⟨by decide, by decide⟩

/-- C9 (amended): the handle keeps at most one listener, and only for the
label `error`: a later `error` registration silently replaces the earlier
one, while a registration for any other label (such as `ready`) leaves the
listener state unchanged and is never kept. -/
theorem onEvent_error_only (error : Option Nat) (event : String) (l l' : Nat) :
    listenerFor (onEvent error "error" l) "error" = some l ∧
    onEvent (onEvent error "error" l) "error" l' = some l' ∧
    (¬ event = "error" → onEvent error event l = error ∧
      listenerFor error event = none) := by
  refine ⟨by simp [onEvent, listenerFor], by simp [onEvent], fun h => ?_⟩
  exact ⟨by simp [onEvent, h], by simp [listenerFor, h]⟩

/-- Witness for `onEvent_error_only`: evaluated at a handle with listener `3`,
an `error` re-registration chain and a `ready` registration. -/
theorem onEvent_error_only_witness :
    listenerFor (onEvent (some 3) "error" 1) "error" = some 1 ∧
    onEvent (onEvent (some 3) "error" 1) "error" 2 = some 2 ∧
    (onEvent (some 3) "ready" 1 = some 3 ∧ listenerFor (some 3) "ready" = none) :=
  ⟨(onEvent_error_only (some 3) "ready" 1 2).1,
   (onEvent_error_only (some 3) "ready" 1 2).2.1,
   (onEvent_error_only (some 3) "ready" 1 2).2.2 (by decide)⟩

/-- C10: the timeout argument of `blpop` has no effect whatsoever: for any two
timeout values the store-level call and the registry-level operation produce
the identical callback invocations and the identical resulting state. -/
theorem blpop_timeout_irrelevant (st : Storing) (stores : Registry)
    (h : Nat) (queueKey : String) (t1 t2 callback : Nat) :
    blpop st queueKey t1 callback = blpop st queueKey t2 callback ∧
      step stores (Op.blpopOp h queueKey t1 callback) =
        step stores (Op.blpopOp h queueKey t2 callback) := by
  have hb : ∀ st' : Storing, blpop st' queueKey t1 callback =
      blpop st' queueKey t2 callback := by
    intro st'
    induction st' with
    | nil => rfl
    | cons e rest ih => simp only [blpop, ih]
  refine ⟨hb st, ?_⟩
  rw [step, step]
  simp only [hb]


theorem rpush_preserves_ok (st : Storing) (queueKey value : String)
    (h : StoringOk st) : StoringOk (rpush st queueKey value).2.1 := by
  induction st with
  | nil =>
    intro e he
    simp only [rpush, List.mem_singleton] at he
    subst he
    exact Or.inr rfl
  | cons a rest ih =>
    have ha : EntryOk a := h a (by simp)
    have hrest : StoringOk rest := fun e he => h e (by simp [he])
    by_cases hk : a.key = queueKey
    · rw [rpush, if_pos hk]
      cases hw : a.watch with
      | cons w ws =>
        intro e he
        simp only [List.mem_cons] at he
        rcases he with rfl | he
        · left
          rcases ha with hi | hw2
          · exact hi
          · rw [hw] at hw2; cases hw2
        · exact hrest e he
      | nil =>
        intro e he
        simp only [List.mem_cons] at he
        rcases he with rfl | he
        · right; rfl
        · exact hrest e he
    · rw [rpush_skip a rest _ _ hk]
      intro e he
      simp only [List.mem_cons] at he
      rcases he with rfl | he
      · exact ha
      · exact ih hrest e he

theorem blpop_preserves_ok (st : Storing) (queueKey : String)
    (timeoutInSecs callback : Nat) (h : StoringOk st) :
    StoringOk (blpop st queueKey timeoutInSecs callback).1 := by
  induction st with
  | nil =>
    intro e he
    simp only [blpop, List.mem_singleton] at he
    subst he
    exact Or.inl rfl
  | cons a rest ih =>
    have ha : EntryOk a := h a (by simp)
    have hrest : StoringOk rest := fun e he => h e (by simp [he])
    by_cases hk : a.key = queueKey
    · rw [blpop, if_pos hk]
      cases hi : a.items with
      | cons i is =>
        intro e he
        simp only [List.mem_cons] at he
        rcases he with rfl | he
        · right
          rcases ha with hi2 | hw2
          · rw [hi] at hi2; cases hi2
          · exact hw2
        · exact hrest e he
      | nil =>
        intro e he
        simp only [List.mem_cons] at he
        rcases he with rfl | he
        · left; rfl
        · exact hrest e he
    · rw [blpop_skip a rest _ _ _ hk]
      intro e he
      simp only [List.mem_cons] at he
      rcases he with rfl | he
      · exact ha
      · exact ih hrest e he

theorem lpop_preserves_ok (st : Storing) (queueKey : String) (callback : Nat)
    (h : StoringOk st) : StoringOk (lpop st queueKey callback).1 := by
  induction st with
  | nil => intro e he; exact absurd he (List.not_mem_nil e)
  | cons a rest ih =>
    have ha : EntryOk a := h a (by simp)
    have hrest : StoringOk rest := fun e he => h e (by simp [he])
    by_cases hk : a.key = queueKey
    · rw [lpop, if_pos hk]
      cases hi : a.items with
      | cons i is =>
        intro e he
        simp only [List.mem_cons] at he
        rcases he with rfl | he
        · right
          rcases ha with hi2 | hw2
          · rw [hi] at hi2; cases hi2
          · exact hw2
        · exact hrest e he
      | nil =>
        intro e he
        simp only [List.mem_cons] at he
        rcases he with rfl | he
        · exact ha
        · exact hrest e he
    · rw [lpop_skip a rest _ _ hk]
      intro e he
      simp only [List.mem_cons] at he
      rcases he with rfl | he
      · exact ha
      · exact ih hrest e he

theorem createClient_preserves_ok (stores : Registry) (connect : String)
    (h : RegistryOk stores) : RegistryOk (createClient stores connect).2 := by
  rw [createClient]
  by_cases hs : startsWithMocks connect = true
  · rw [if_pos hs]
    cases hf : findStore stores connect with
    | some i => exact h
    | none =>
      intro s hsm
      rcases List.mem_append.mp hsm with hm | hm
      · exact h s hm
      · simp only [List.mem_singleton] at hm
        subst hm
        intro e he
        exact absurd he (List.not_mem_nil e)
  · rw [if_neg hs]; exact h

theorem step_preserves_ok (stores : Registry) (op : Op) (h : RegistryOk stores) :
    RegistryOk (step stores op).1 := by
  cases op with
  | create connect => exact createClient_preserves_ok stores connect h
  | rpushOp hh queueKey value =>
    rw [step]
    cases hg : stores[hh]? with
    | none => exact h
    | some s =>
      intro s' hs'
      rcases List.mem_or_eq_of_mem_set hs' with hm | rfl
      · exact h s' hm
      · exact rpush_preserves_ok s.storing queueKey value
          (h s (List.getElem?_mem hg))
  | blpopOp hh queueKey timeoutInSecs callback =>
    rw [step]
    cases hg : stores[hh]? with
    | none => exact h
    | some s =>
      intro s' hs'
      rcases List.mem_or_eq_of_mem_set hs' with hm | rfl
      · exact h s' hm
      · exact blpop_preserves_ok s.storing queueKey timeoutInSecs callback
          (h s (List.getElem?_mem hg))
  | lpopOp hh queueKey callback =>
    rw [step]
    cases hg : stores[hh]? with
    | none => exact h
    | some s =>
      intro s' hs'
      rcases List.mem_or_eq_of_mem_set hs' with hm | rfl
      · exact h s' hm
      · exact lpop_preserves_ok s.storing queueKey callback
          (h s (List.getElem?_mem hg))

theorem run_preserves_ok (stores : Registry) (ops : List Op)
    (h : RegistryOk stores) : RegistryOk (run stores ops).1 := by
  induction ops generalizing stores with
  | nil => exact h
  | cons op ops ih => exact ih (step stores op).1 (step_preserves_ok stores op h)

/-- C3: in every registry state reachable by any program of `createClient`,
`rpush`, `blpop` and `lpop` operations, no queue ever has buffered items and
pending waiters at the same time. -/
theorem reachable_hand_off_invariant (ops : List Op) :
    ∀ s, s ∈ (run [] ops).1 → ∀ e, e ∈ s.storing →
      e.items = [] ∨ e.watch = [] := by
  intro s hs e he
  exact run_preserves_ok [] ops (fun s hs => absurd hs (List.not_mem_nil s)) s hs e he

/-- Witness for `reachable_hand_off_invariant`: evaluated on the state reached
by registering one waiter on a fresh queue. -/
theorem reachable_hand_off_invariant_witness :
    (⟨"Q", [4], []⟩ : QueueEntry).items = [] ∨
      (⟨"Q", [4], []⟩ : QueueEntry).watch = [] :=
  reachable_hand_off_invariant [Op.create "mocks://x", Op.blpopOp 0 "Q" 0 4]
    ⟨"mocks://x", [⟨"Q", [4], []⟩]⟩ (by decide) ⟨"Q", [4], []⟩ (by decide)


theorem countCalls_append (cb : Nat) (l1 l2 : List Ev) :
    countCalls cb (l1 ++ l2) = countCalls cb l1 + countCalls cb l2 := by
  induction l1 with
  | nil => simp [countCalls]
  | cons ev l1 ih =>
    cases ev with
    | blpopCall c err reply => simp [countCalls, ih]; omega
    | lpopCall c err reply => simp [countCalls, ih]

theorem countList_append (cb : Nat) (l1 l2 : List Nat) :
    countList cb (l1 ++ l2) = countList cb l1 + countList cb l2 := by
  induction l1 with
  | nil => simp [countList]
  | cons n l1 ih => simp [countList, ih]; omega

theorem rpush_watch_count (st : Storing) (queueKey value : String) (cb : Nat) :
    countWatch cb (rpush st queueKey value).2.1 +
      countCalls cb (rpush st queueKey value).2.2 = countWatch cb st := by
  induction st with
  | nil => simp [rpush, countWatch, countCalls, countList]
  | cons a rest ih =>
    by_cases hk : a.key = queueKey
    · rw [rpush, if_pos hk]
      cases hw : a.watch with
      | cons w ws =>
        simp only [countWatch, countCalls, countList, hw]
        omega
      | nil => simp only [countWatch, countCalls, countList, hw]; omega
    · rw [rpush_skip a rest _ _ hk]
      simp only [countWatch, countCalls]
      omega

theorem blpop_watch_count (st : Storing) (queueKey : String)
    (timeoutInSecs callback cb : Nat) :
    countWatch cb (blpop st queueKey timeoutInSecs callback).1 +
      countCalls cb (blpop st queueKey timeoutInSecs callback).2 =
      countWatch cb st + (if callback = cb then 1 else 0) := by
  induction st with
  | nil => simp [blpop, countWatch, countCalls, countList]
  | cons a rest ih =>
    by_cases hk : a.key = queueKey
    · rw [blpop, if_pos hk]
      cases hi : a.items with
      | cons i is =>
        simp only [countWatch, countCalls, countList]
        omega
      | nil =>
        simp only [countWatch, countCalls, countList, countList_append]
        omega
    · rw [blpop_skip a rest _ _ _ hk]
      simp only [countWatch, countCalls]
      omega

theorem lpop_watch_count (st : Storing) (queueKey : String) (callback cb : Nat) :
    countWatch cb (lpop st queueKey callback).1 +
      countCalls cb (lpop st queueKey callback).2 = countWatch cb st := by
  induction st with
  | nil => simp [lpop, countWatch, countCalls]
  | cons a rest ih =>
    by_cases hk : a.key = queueKey
    · rw [lpop, if_pos hk]
      cases hi : a.items with
      | cons i is => simp only [countWatch, countCalls]; omega
      | nil => simp only [countWatch, countCalls]; omega
    · rw [lpop_skip a rest _ _ hk]
      simp only [countWatch, countCalls]
      omega

theorem countWatchReg_append (cb : Nat) (r1 r2 : Registry) :
    countWatchReg cb (r1 ++ r2) = countWatchReg cb r1 + countWatchReg cb r2 := by
  induction r1 with
  | nil => simp [countWatchReg]
  | cons s r1 ih => simp [countWatchReg, ih]; omega

theorem countWatchReg_set_storing (cb : Nat) (stores : Registry) (h : Nat)
    (s : Stored) (st : Storing) (hg : stores[h]? = some s) :
    countWatchReg cb (stores.set h { s with storing := st }) +
      countWatch cb s.storing =
      countWatchReg cb stores + countWatch cb st := by
  induction stores generalizing h with
  | nil => simp at hg
  | cons a rest ih =>
    cases h with
    | zero =>
      simp only [List.getElem?_cons_zero, Option.some.injEq] at hg
      subst hg
      simp only [List.set, countWatchReg]
      omega
    | succ n =>
      simp only [List.getElem?_cons_succ] at hg
      simp only [List.set, countWatchReg]
      have := ih n hg
      omega

theorem step_watch_count (stores : Registry) (op : Op) (cb : Nat)
    (hv : opHandleOk stores op = true) :
    countWatchReg cb (step stores op).1 + countCalls cb (step stores op).2 =
      countWatchReg cb stores + countBlpopOps cb [op] := by
  cases op with
  | create connect =>
    rw [step, createClient]
    by_cases hs : startsWithMocks connect = true
    · rw [if_pos hs]
      cases hf : findStore stores connect with
      | some i => simp [countCalls, countBlpopOps]
      | none =>
        simp [countCalls, countBlpopOps, countWatchReg_append, countWatchReg,
          countWatch]
    · rw [if_neg hs]
      simp [countCalls, countBlpopOps]
  | rpushOp hh queueKey value =>
    rw [step]
    cases hg : stores[hh]? with
    | none => simp [countCalls, countBlpopOps]
    | some s =>
      have h1 := countWatchReg_set_storing cb stores hh s
        (rpush s.storing queueKey value).2.1 hg
      have h2 := rpush_watch_count s.storing queueKey value cb
      simp only [countBlpopOps]
      omega
  | blpopOp hh queueKey timeoutInSecs callback =>
    rw [step]
    cases hg : stores[hh]? with
    | none =>
      simp only [opHandleOk, decide_eq_true_eq] at hv
      rw [List.getElem?_eq_none_iff] at hg
      omega
    | some s =>
      have h1 := countWatchReg_set_storing cb stores hh s
        (blpop s.storing queueKey timeoutInSecs callback).1 hg
      have h2 := blpop_watch_count s.storing queueKey timeoutInSecs callback cb
      simp only [countBlpopOps]
      omega
  | lpopOp hh queueKey callback =>
    rw [step]
    cases hg : stores[hh]? with
    | none => simp [countCalls, countBlpopOps]
    | some s =>
      have h1 := countWatchReg_set_storing cb stores hh s
        (lpop s.storing queueKey callback).1 hg
      have h2 := lpop_watch_count s.storing queueKey callback cb
      simp only [countBlpopOps]
      omega

theorem run_watch_count (stores : Registry) (ops : List Op) (cb : Nat)
    (hv : validOps stores ops = true) :
    countWatchReg cb (run stores ops).1 + countCalls cb (run stores ops).2 =
      countWatchReg cb stores + countBlpopOps cb ops := by
  induction ops generalizing stores with
  | nil => simp [run, countCalls, countBlpopOps]
  | cons op ops ih =>
    simp only [validOps, Bool.and_eq_true] at hv
    show countWatchReg cb (run (step stores op).1 ops).1 +
        countCalls cb ((step stores op).2 ++ (run (step stores op).1 ops).2) =
        countWatchReg cb stores + countBlpopOps cb (op :: ops)
    rw [countCalls_append]
    have h1 := step_watch_count stores op cb hv.1
    have h2 := ih (step stores op).1 hv.2
    have h3 : countBlpopOps cb (op :: ops) =
        countBlpopOps cb [op] + countBlpopOps cb ops := by
      cases op <;> simp [countBlpopOps]
    omega

theorem rpush_events_matched (st : Storing) (queueKey value : String) :
    ∀ c err reply, Ev.blpopCall c err reply ∈ (rpush st queueKey value).2.2 →
      err = none ∧ ∃ p, reply = some p := by
  induction st with
  | nil => intro c err reply h; exact absurd h (List.not_mem_nil _)
  | cons a rest ih =>
    by_cases hk : a.key = queueKey
    · rw [rpush, if_pos hk]
      cases hw : a.watch with
      | cons w ws =>
        intro c err reply h
        simp only [List.mem_singleton, Ev.blpopCall.injEq] at h
        exact ⟨h.2.1, ⟨(queueKey, value), h.2.2⟩⟩
      | nil => intro c err reply h; exact absurd h (List.not_mem_nil _)
    · rw [rpush_skip a rest _ _ hk]; exact ih

theorem blpop_events_matched (st : Storing) (queueKey : String)
    (timeoutInSecs callback : Nat) :
    ∀ c err reply,
      Ev.blpopCall c err reply ∈ (blpop st queueKey timeoutInSecs callback).2 →
      err = none ∧ ∃ p, reply = some p := by
  induction st with
  | nil => intro c err reply h; exact absurd h (List.not_mem_nil _)
  | cons a rest ih =>
    by_cases hk : a.key = queueKey
    · rw [blpop, if_pos hk]
      cases hi : a.items with
      | cons i is =>
        intro c err reply h
        simp only [List.mem_singleton, Ev.blpopCall.injEq] at h
        exact ⟨h.2.1, ⟨(queueKey, i), h.2.2⟩⟩
      | nil => intro c err reply h; exact absurd h (List.not_mem_nil _)
    · rw [blpop_skip a rest _ _ _ hk]; exact ih

theorem lpop_events_matched (st : Storing) (queueKey : String) (callback : Nat) :
    ∀ c err reply, Ev.blpopCall c err reply ∈ (lpop st queueKey callback).2 →
      err = none ∧ ∃ p, reply = some p := by
  induction st with
  | nil => intro c err reply h; simp [lpop] at h
  | cons a rest ih =>
    by_cases hk : a.key = queueKey
    · rw [lpop, if_pos hk]
      cases hi : a.items with
      | cons i is => intro c err reply h; simp at h
      | nil => intro c err reply h; simp at h
    · rw [lpop_skip a rest _ _ hk]; exact ih

theorem step_events_matched (stores : Registry) (op : Op) :
    ∀ c err reply, Ev.blpopCall c err reply ∈ (step stores op).2 →
      err = none ∧ ∃ p, reply = some p := by
  cases op with
  | create connect => intro c err reply h; exact absurd h (List.not_mem_nil _)
  | rpushOp hh queueKey value =>
    rw [step]
    cases hg : stores[hh]? with
    | none => intro c err reply h; exact absurd h (List.not_mem_nil _)
    | some s => exact rpush_events_matched s.storing queueKey value
  | blpopOp hh queueKey timeoutInSecs callback =>
    rw [step]
    cases hg : stores[hh]? with
    | none => intro c err reply h; exact absurd h (List.not_mem_nil _)
    | some s => exact blpop_events_matched s.storing queueKey timeoutInSecs callback
  | lpopOp hh queueKey callback =>
    rw [step]
    cases hg : stores[hh]? with
    | none => intro c err reply h; exact absurd h (List.not_mem_nil _)
    | some s => exact lpop_events_matched s.storing queueKey callback

theorem run_events_matched (stores : Registry) (ops : List Op) :
    ∀ c err reply, Ev.blpopCall c err reply ∈ (run stores ops).2 →
      err = none ∧ ∃ p, reply = some p := by
  induction ops generalizing stores with
  | nil => intro c err reply h; exact absurd h (List.not_mem_nil _)
  | cons op ops ih =>
    intro c err reply h
    have hm : Ev.blpopCall c err reply ∈
        (step stores op).2 ++ (run (step stores op).1 ops).2 := h
    rcases List.mem_append.mp hm with hm | hm
    · exact step_events_matched stores op c err reply hm
    · exact ih (step stores op).1 c err reply hm

/-- C4 counterexample: a waiter registered with a positive timeout and never
served by a push receives zero invocations — the complete run of the program
produces an empty event log while the waiter stays registered, because the
source contains no timer and no code path that invokes a waiter with
`(null, null)`. -/
theorem waiter_zero_invocations_cex :
    run [] [Op.create "mocks://x", Op.blpopOp 0 "Q" 1 0] =
      ([⟨"mocks://x", [⟨"Q", [0], []⟩]⟩], []) := by decide

/-- C4 (amended): each waiter is invoked at most once, and only through a
matching push: over any program, the deliveries to a callback plus its still
pending registrations equal the number of blocking pops issued with it (so a
callback used by at most one blocking pop is invoked at most once), and every
delivery to a blocking-pop callback carries a null error and a matched
`[name, value]` pair — no `(null, null)` timeout delivery exists. -/
theorem waiter_delivery_accounting (ops : List Op) (cb : Nat)
    (hv : validOps [] ops = true) :
    countCalls cb (run [] ops).2 + countWatchReg cb (run [] ops).1 =
      countBlpopOps cb ops ∧
    (countBlpopOps cb ops ≤ 1 → countCalls cb (run [] ops).2 ≤ 1) ∧
    (∀ c err reply, Ev.blpopCall c err reply ∈ (run [] ops).2 →
      err = none ∧ ∃ p, reply = some p) := by
  have h := run_watch_count [] ops cb hv
  simp only [countWatchReg] at h
  exact ⟨by omega, fun _ => by omega, run_events_matched [] ops⟩

/-- Witness for `waiter_delivery_accounting`: a program with one blocking pop
served by one push, evaluated concretely. -/
theorem waiter_delivery_accounting_witness :
    validOps [] [Op.create "mocks://x", Op.blpopOp 0 "Q" 0 5,
      Op.rpushOp 0 "Q" "v"] = true ∧
    countCalls 5 (run [] [Op.create "mocks://x", Op.blpopOp 0 "Q" 0 5,
        Op.rpushOp 0 "Q" "v"]).2 +
      countWatchReg 5 (run [] [Op.create "mocks://x", Op.blpopOp 0 "Q" 0 5,
        Op.rpushOp 0 "Q" "v"]).1 =
      countBlpopOps 5 [Op.create "mocks://x", Op.blpopOp 0 "Q" 0 5,
        Op.rpushOp 0 "Q" "v"] ∧
    countCalls 5 (run [] [Op.create "mocks://x", Op.blpopOp 0 "Q" 0 5,
        Op.rpushOp 0 "Q" "v"]).2 ≤ 1 ∧
    ((none : Option String) = none ∧
      ∃ p, (some ("Q", "v") : Option (String × String)) = some p) :=
  ⟨by decide,
   (waiter_delivery_accounting [Op.create "mocks://x", Op.blpopOp 0 "Q" 0 5,
      Op.rpushOp 0 "Q" "v"] 5 (by decide)).1,
   (waiter_delivery_accounting [Op.create "mocks://x", Op.blpopOp 0 "Q" 0 5,
      Op.rpushOp 0 "Q" "v"] 5 (by decide)).2.1 (by decide),
   (waiter_delivery_accounting [Op.create "mocks://x", Op.blpopOp 0 "Q" 0 5,
      Op.rpushOp 0 "Q" "v"] 5 (by decide)).2.2 5 none (some ("Q", "v")) (by decide)⟩


theorem findStore_some (stores : Registry) (connect : String) (i : Nat)
    (h : findStore stores connect = some i) :
    ∃ s, stores[i]? = some s ∧ s.connect = connect := by
  induction stores generalizing i with
  | nil => simp [findStore] at h
  | cons a rest ih =>
    rw [findStore] at h
    by_cases hk : a.connect = connect
    · rw [if_pos hk] at h
      injection h with h
      subst h
      exact ⟨a, by simp, hk⟩
    · rw [if_neg hk] at h
      cases hf : findStore rest connect with
      | none => rw [hf] at h; simp at h
      | some j =>
        rw [hf] at h
        simp only [Option.map_some', Option.some.injEq] at h
        subst h
        obtain ⟨s, hs, hc⟩ := ih j hf
        exact ⟨s, by simpa using hs, hc⟩

theorem findStore_append_none (stores : Registry) (connect : String)
    (x : Stored) (hx : x.connect = connect)
    (h : findStore stores connect = none) :
    findStore (stores ++ [x]) connect = some stores.length := by
  induction stores with
  | nil => simp [findStore, hx]
  | cons a rest ih =>
    rw [findStore] at h
    by_cases hk : a.connect = connect
    · rw [if_pos hk] at h; cases h
    · rw [if_neg hk] at h
      rw [List.cons_append, findStore, if_neg hk]
      cases hf : findStore rest connect with
      | none => rw [ih hf]; simp
      | some j => rw [hf] at h; simp at h

theorem createClient_ok (stores : Registry) (connect : String) (i : Nat)
    (R : Registry) (hs : startsWithMocks connect = true)
    (h : createClient stores connect = (Except.ok i, R)) :
    ∃ s, R[i]? = some s ∧ s.connect = connect := by
  rw [createClient, if_pos hs] at h
  cases hf : findStore stores connect with
  | some j =>
    rw [hf] at h
    simp only [Prod.mk.injEq, Except.ok.injEq] at h
    obtain ⟨rfl, rfl⟩ := h
    exact findStore_some stores connect _ hf
  | none =>
    rw [hf] at h
    simp only [Prod.mk.injEq, Except.ok.injEq] at h
    obtain ⟨rfl, rfl⟩ := h
    exact ⟨⟨connect, []⟩, List.getElem?_concat_length stores _, rfl⟩

theorem createClient_preserves_getElem (stores : Registry) (connect : String)
    (i : Nat) (R : Registry) (j : Nat) (s : Stored)
    (h : createClient stores connect = (Except.ok i, R))
    (hg : stores[j]? = some s) : R[j]? = some s := by
  rw [createClient] at h
  by_cases hs : startsWithMocks connect = true
  · rw [if_pos hs] at h
    cases hf : findStore stores connect with
    | some k =>
      rw [hf] at h
      simp only [Prod.mk.injEq, Except.ok.injEq] at h
      obtain ⟨-, rfl⟩ := h
      exact hg
    | none =>
      rw [hf] at h
      simp only [Prod.mk.injEq, Except.ok.injEq] at h
      obtain ⟨-, rfl⟩ := h
      have hlt : j < stores.length := by
        rcases List.getElem?_eq_some.mp hg with ⟨hlt, -⟩
        exact hlt
      rw [List.getElem?_append, if_pos hlt]
      exact hg
  · rw [if_neg hs] at h
    simp at h

/-- C5: handles for the identical connection identifier share one store — a
second acquisition returns the very same handle and registry, and a push via
one handle is delivered to a blocking pop via the other — while acquisitions
for distinct identifiers yield distinct stores, and a push through one store
never changes the other. -/
theorem registry_reuse_and_isolation :
    (∀ stores connect, startsWithMocks connect = true →
      createClient ((createClient stores connect).2) connect =
        createClient stores connect) ∧
    (∀ connect queueKey v t cb, startsWithMocks connect = true →
      run [] [Op.create connect, Op.create connect, Op.rpushOp 0 queueKey v,
          Op.blpopOp 0 queueKey t cb] =
        ([⟨connect, [⟨queueKey, [], []⟩]⟩],
          [Ev.blpopCall cb none (some (queueKey, v))])) ∧
    (∀ stores c1 c2 i1 i2 R1 R2 queueKey v,
      startsWithMocks c1 = true → startsWithMocks c2 = true → ¬ c1 = c2 →
      createClient stores c1 = (Except.ok i1, R1) →
      createClient R1 c2 = (Except.ok i2, R2) →
      ¬ i1 = i2 ∧
        ((step R2 (Op.rpushOp i1 queueKey v)).1)[i2]? = R2[i2]?) := by
  refine ⟨?_, ?_, ?_⟩
  · intro stores connect hs
    cases hf : findStore stores connect with
    | some i =>
      have h1 : createClient stores connect = (Except.ok i, stores) := by
        rw [createClient, if_pos hs, hf]
      rw [h1]
      exact h1
    | none =>
      have h1 : createClient stores connect =
          (Except.ok stores.length, stores ++ [⟨connect, []⟩]) := by
        rw [createClient, if_pos hs, hf]
      rw [h1]
      show createClient (stores ++ [⟨connect, []⟩]) connect =
        (Except.ok stores.length, stores ++ [⟨connect, []⟩])
      have h2 : findStore (stores ++ [⟨connect, []⟩]) connect =
          some stores.length :=
        findStore_append_none stores connect ⟨connect, []⟩ rfl hf
      rw [createClient, if_pos hs, h2]
  · intro connect queueKey v t cb hs
    have h1 : createClient [] connect = (Except.ok 0, [⟨connect, []⟩]) := by
      rw [createClient, if_pos hs]
      rfl
    have h2 : findStore [⟨connect, []⟩] connect = some 0 := by
      rw [findStore, if_pos rfl]
    have h3 : createClient [⟨connect, []⟩] connect =
        (Except.ok 0, [⟨connect, []⟩]) := by
      rw [createClient, if_pos hs, h2]
    simp [run, step, h1, h3, rpush, blpop, List.set]
  · intro stores c1 c2 i1 i2 R1 R2 queueKey v hs1 hs2 hne hc1 hc2
    obtain ⟨s1, hg1, hcs1⟩ := createClient_ok stores c1 i1 R1 hs1 hc1
    obtain ⟨s2, hg2, hcs2⟩ := createClient_ok R1 c2 i2 R2 hs2 hc2
    have hg1' : R2[i1]? = some s1 :=
      createClient_preserves_getElem R1 c2 i2 R2 i1 s1 hc2 hg1
    have hne12 : ¬ i1 = i2 := by
      intro he
      subst he
      rw [hg1'] at hg2
      injection hg2 with hg2
      subst hg2
      exact hne (hcs1.symm.trans hcs2)
    refine ⟨hne12, ?_⟩
    rw [step]
    cases hg : R2[i1]? with
    | none => rfl
    | some s => exact List.getElem?_set_ne hne12

/-- Witness for `registry_reuse_and_isolation`: the three parts evaluated at
concrete connection strings and a concrete queue. -/
theorem registry_reuse_and_isolation_witness :
    createClient ((createClient [] "mocks://a").2) "mocks://a" =
      createClient [] "mocks://a" ∧
    run [] [Op.create "mocks://a", Op.create "mocks://a",
        Op.rpushOp 0 "Q" "v", Op.blpopOp 0 "Q" 0 3] =
      ([⟨"mocks://a", [⟨"Q", [], []⟩]⟩],
        [Ev.blpopCall 3 none (some ("Q", "v"))]) ∧
    (¬ (0 : Nat) = 1 ∧
      ((step [⟨"mocks://a", []⟩, ⟨"mocks://b", []⟩]
          (Op.rpushOp 0 "Q" "v")).1)[1]? =
        ([⟨"mocks://a", []⟩, ⟨"mocks://b", []⟩] : Registry)[1]?) :=
  ⟨registry_reuse_and_isolation.1 [] "mocks://a" (by decide),
   registry_reuse_and_isolation.2.1 "mocks://a" "Q" "v" 0 3 (by decide),
   registry_reuse_and_isolation.2.2 [] "mocks://a" "mocks://b" 0 1
     [⟨"mocks://a", []⟩] [⟨"mocks://a", []⟩, ⟨"mocks://b", []⟩] "Q" "v"
     (by decide) (by decide) (by decide) rfl rfl⟩

/-- C6: items are delivered strictly FIFO by push order and waiters are served
strictly FIFO by registration order: pushing `a`, `b`, `c` onto a fresh queue
and popping three times yields `a`, `b`, `c` in that order, and registering
blocking pops `w1` then `w2` and pushing `v1`, `v2` delivers `v1` to `w1` and
`v2` to `w2`. -/
theorem fifo_items_and_waiters (queueKey a b c v1 v2 : String)
    (p1 p2 p3 w1 w2 t1 t2 : Nat) :
    run [] [Op.create "mocks://fifo", Op.rpushOp 0 queueKey a,
        Op.rpushOp 0 queueKey b, Op.rpushOp 0 queueKey c,
        Op.lpopOp 0 queueKey p1, Op.lpopOp 0 queueKey p2,
        Op.lpopOp 0 queueKey p3] =
      ([⟨"mocks://fifo", [⟨queueKey, [], []⟩]⟩],
        [Ev.lpopCall p1 none (some a), Ev.lpopCall p2 none (some b),
          Ev.lpopCall p3 none (some c)]) ∧
    run [] [Op.create "mocks://fifo", Op.blpopOp 0 queueKey t1 w1,
        Op.blpopOp 0 queueKey t2 w2, Op.rpushOp 0 queueKey v1,
        Op.rpushOp 0 queueKey v2] =
      ([⟨"mocks://fifo", [⟨queueKey, [], []⟩]⟩],
        [Ev.blpopCall w1 none (some (queueKey, v1)),
          Ev.blpopCall w2 none (some (queueKey, v2))]) := by
  have h1 : createClient [] "mocks://fifo" =
      (Except.ok 0, [⟨"mocks://fifo", []⟩]) := rfl
  constructor
  · simp [run, step, h1, rpush, lpop, List.set]
  · simp [run, step, h1, rpush, blpop, List.set]

end RedisQueueMock
